import Mathlib

/-!
Verification of the in-memory file-handle layer (`os/src/fs/inode.rs`):
open-flag resolution, the open procedure, scatter-gather read/write,
`read_all`, and the hard-link counting table.

Shallow embedding conventions:
* file contents are `List Nat` (byte sequences);
* the external easy-fs inode operations (`find`, `create`, `clear`,
  `read_at`, `write_at`) are modelled from the spec's interface section,
  since that library is not part of the visible source;
* the process-global `NLINK_MAP` (a `BTreeMap<usize, usize>`) is modelled
  as a function `Nat → Option Nat`; operations are explicit state passing;
* the `UserBuffer` scatter-gather buffer is a `List (List Nat)` of slices.
-/

namespace RCoreFs

/-- Byte sequences standing for file contents and buffer slices. -/
abbrev Bytes := List Nat

/-- Modelled from the spec: easy-fs `read_at(offset, buffer)` copies up to
`buflen` bytes of the file content starting at `offset`; it returns the
bytes actually read (empty at or past end of file). -/
def readAt (data : Bytes) (offset : Nat) (buflen : Nat) : Bytes :=
  (data.drop offset).take buflen

/-- Bit 0 of `OpenFlags`: write-only. -/
def OpenFlags.WRONLY : Nat := 1

/-- Bit 1 of `OpenFlags`: read-write. -/
def OpenFlags.RDWR : Nat := 2

/-- Bit 9 of `OpenFlags`: create the file if missing. -/
def OpenFlags.CREATE : Nat := 512

/-- Bit 10 of `OpenFlags`: truncate the file size to 0 on open. -/
def OpenFlags.TRUNC : Nat := 1024

/-- The bitflags `contains` test: all bits of `flag` are set in `flags`. -/
def containsFlag (flags flag : Nat) : Bool :=
  flags &&& flag == flag

/-- `OpenFlags::read_write`: resolve a flags bitmask to the
(readable, writable) capability pair, with no validity checking. -/
def read_write (flags : Nat) : Bool × Bool :=
  if flags == 0 then (true, false)
  else if containsFlag flags OpenFlags.WRONLY then (false, true)
  else (true, true)

/-- The process-wide link-count table `NLINK_MAP`, a partial map from
inode identifier to stored hard-link count. -/
def NlinkMap : Type := Nat → Option Nat

/-- The initial, empty link-count table. -/
def NlinkMap.empty : NlinkMap := fun _ => none

/-- `increase_nlink`: increment the stored count if present, otherwise
insert the identifier with value 2. -/
def increase_nlink (m : NlinkMap) (inode_id : Nat) : NlinkMap :=
  match m inode_id with
  | some n => fun x => if x = inode_id then some (n + 1) else m x
  | none => fun x => if x = inode_id then some 2 else m x

/-- `decrease_nlink`: decrement an existing entry by 1, removing it when
the result is 0; no-op when the identifier is absent. -/
def decrease_nlink (m : NlinkMap) (inode_id : Nat) : NlinkMap :=
  match m inode_id with
  | some n =>
      if n - 1 = 0 then fun x => if x = inode_id then none else m x
      else fun x => if x = inode_id then some (n - 1) else m x
  | none => m

/-- `get_nlink`: the stored count for the identifier, defaulting to 1
when absent. -/
def get_nlink (m : NlinkMap) (inode_id : Nat) : Nat :=
  (m inode_id).getD 1

/-- One step of link-count table evolution: `true` is an `increase_nlink`
call, `false` a `decrease_nlink` call, on the given identifier. -/
def nlinkStep (m : NlinkMap) (op : Bool × Nat) : NlinkMap :=
  if op.1 then increase_nlink m op.2 else decrease_nlink m op.2

/-- Apply a sequence of increase/decrease operations to a table. -/
def nlinkRun (m : NlinkMap) (ops : List (Bool × Nat)) : NlinkMap :=
  List.foldl nlinkStep m ops

/-- Modelled from the spec: the flat root directory of the external
filesystem, a listing of names with their file contents. -/
structure FsState where
  files : List (String × Bytes)

/-- Modelled from the spec: `ROOT_INODE.find(name)`, a flat single-level
lookup returning the named file's content handle when present. -/
def FsState.find (fs : FsState) (name : String) : Option Bytes :=
  (fs.files.find? (fun p => p.1 == name)).map Prod.snd

/-- Replace the content stored under `name` in a directory listing. -/
def setContent (files : List (String × Bytes)) (name : String) (data : Bytes) :
    List (String × Bytes) :=
  files.map (fun p => if p.1 == name then (p.1, data) else p)

/-- Modelled from the spec: `inode.clear()` truncates the named file's
content to empty. -/
def FsState.clear (fs : FsState) (name : String) : FsState :=
  ⟨setContent fs.files name []⟩

/-- Modelled from the spec: `ROOT_INODE.create(name)` on success adds a
fresh empty file under `name`. -/
def FsState.create (fs : FsState) (name : String) : FsState :=
  ⟨fs.files ++ [(name, [])]⟩

/-- `OSInode`: an open handle holding the fixed capability pair, the
private cursor, and a reference to the underlying inode (by its flat
root-directory name). -/
structure OSInode where
  readable : Bool
  writable : Bool
  offset : Nat
  inode : String
  deriving DecidableEq

/-- `OSInode::new`: construct a handle with cursor 0. -/
def OSInode.new (readable writable : Bool) (inode : String) : OSInode :=
  ⟨readable, writable, 0, inode⟩

/-- `open_file(name, flags)`: resolve capabilities, then find-or-create
(under CREATE, clearing an existing file) or find-with-optional-truncate.
`createOk` models whether the external `ROOT_INODE.create` call succeeds;
the pair returned is the optional handle and the updated directory. -/
def open_file (fs : FsState) (createOk : Bool) (name : String) (flags : Nat) :
    Option OSInode × FsState :=
  let rw := read_write flags
  if containsFlag flags OpenFlags.CREATE then
    match fs.find name with
    | some _ => (some (OSInode.new rw.1 rw.2 name), fs.clear name)
    | none =>
        if createOk then (some (OSInode.new rw.1 rw.2 name), fs.create name)
        else (none, fs)
  else
    match fs.find name with
    | some _ =>
        if containsFlag flags OpenFlags.TRUNC then
          (some (OSInode.new rw.1 rw.2 name), fs.clear name)
        else (some (OSInode.new rw.1 rw.2 name), fs)
    | none => (none, fs)

/-- `File::read` for `OSInode`: iterate the destination slices in order,
reading from the underlying content at the cursor into each slice,
breaking at the first zero-length read; returns the final slice list, the
total bytes read, and the updated handle. -/
def file_read (data : Bytes) (h : OSInode) (bufs : List Bytes) :
    List Bytes × Nat × OSInode :=
  match bufs with
  | [] => ([], 0, h)
  | slice :: rest =>
      let rd := readAt data h.offset slice.length
      if rd.length = 0 then (slice :: rest, 0, h)
      else
        let res :=
          file_read data ⟨h.readable, h.writable, h.offset + rd.length, h.inode⟩ rest
        ((rd ++ slice.drop rd.length) :: res.1, rd.length + res.2.1, res.2.2)

/-- `File::write` for `OSInode`: write each source slice in full at the
cursor through the abstract `writeAt` length oracle of the underlying
store, asserting (modelled as `none`) when the store reports fewer bytes
written than the slice length; returns the total and the updated handle. -/
def file_write (writeAt : Nat → Bytes → Nat) (h : OSInode) (bufs : List Bytes) :
    Option (Nat × OSInode) :=
  match bufs with
  | [] => some (0, h)
  | slice :: rest =>
      let w := writeAt h.offset slice
      if w = slice.length then
        match file_write writeAt ⟨h.readable, h.writable, h.offset + w, h.inode⟩ rest with
        | some res => some (w + res.1, res.2)
        | none => none
      else none

/-- `OSInode::read_all`: drain the underlying content from the cursor to
end of file in 512-byte chunked reads, stopping at the first zero-length
read; returns the accumulated bytes and the updated handle. -/
def read_all (data : Bytes) (h : OSInode) : Bytes × OSInode :=
  if hlen : (readAt data h.offset 512).length = 0 then ([], h)
  else
    let rest :=
      read_all data
        ⟨h.readable, h.writable, h.offset + (readAt data h.offset 512).length, h.inode⟩
    (readAt data h.offset 512 ++ rest.1, rest.2)
termination_by data.length - h.offset
decreasing_by
  simp only [readAt, List.length_take, List.length_drop] at hlen ⊢
  omega

/-- Sum of the lengths of a list of slices. -/
def totalLen (bufs : List Bytes) : Nat :=
  (bufs.map List.length).sum

/-- Every stored count in a link-count table is at least 1. -/
def NlinkInv (m : NlinkMap) : Prop :=
  ∀ id c, m id = some c → 1 ≤ c

lemma nlinkStep_preserves (m : NlinkMap) (op : Bool × Nat) (hm : NlinkInv m) :
    NlinkInv (nlinkStep m op) := by
  intro id c h
  unfold nlinkStep at h
  by_cases hop : op.1 = true
  · rw [if_pos hop] at h
    cases hs : m op.2 with
    | some n =>
        simp only [increase_nlink, hs] at h
        by_cases hid : id = op.2
        · rw [if_pos hid] at h
          have := Option.some.inj h
          omega
        · rw [if_neg hid] at h
          exact hm id c h
    | none =>
        simp only [increase_nlink, hs] at h
        by_cases hid : id = op.2
        · rw [if_pos hid] at h
          exact Option.some.inj h ▸ by omega
        · rw [if_neg hid] at h
          exact hm id c h
  · rw [if_neg hop] at h
    cases hs : m op.2 with
    | some n =>
        simp only [decrease_nlink, hs] at h
        by_cases hz : n - 1 = 0
        · rw [if_pos hz] at h
          by_cases hid : id = op.2
          · rw [if_pos hid] at h
            exact absurd h (by simp)
          · rw [if_neg hid] at h
            exact hm id c h
        · rw [if_neg hz] at h
          by_cases hid : id = op.2
          · rw [if_pos hid] at h
            have := Option.some.inj h
            omega
          · rw [if_neg hid] at h
            exact hm id c h
    | none =>
        simp only [decrease_nlink, hs] at h
        exact hm id c h

lemma nlinkRun_preserves :
    ∀ (ops : List (Bool × Nat)) (m : NlinkMap), NlinkInv m → NlinkInv (nlinkRun m ops) := by
  intro ops
  induction ops with
  | nil => intro m hm; simpa [nlinkRun] using hm
  | cons op rest ih =>
      intro m hm
      have hstep := nlinkStep_preserves m op hm
      simpa [nlinkRun, List.foldl] using ih (nlinkStep m op) hstep

/-- C7: after any sequence of increase/decrease operations starting from
the empty link-count table, every identifier stored in the table has a
count of at least 1; no entry with count 0 is ever retained. -/
theorem nlink_no_zero_entry (ops : List (Bool × Nat)) (id c : Nat)
    (h : nlinkRun NlinkMap.empty ops id = some c) : 1 ≤ c := by
  have hempty : NlinkInv NlinkMap.empty := by
    intro i k hk
    simp [NlinkMap.empty] at hk
  exact nlinkRun_preserves ops NlinkMap.empty hempty id c h

/-- Concrete instantiation of `nlink_no_zero_entry`: one increase on a
fresh identifier stores the count 2, which is at least 1. -/
theorem nlink_no_zero_entry_witness :
    nlinkRun NlinkMap.empty [(true, 5)] 5 = some 2 ∧ 1 ≤ 2 :=
  ⟨by decide, nlink_no_zero_entry [(true, 5)] 5 2 (by decide)⟩

lemma find?_setContent (l : List (String × Bytes)) (name : String) (data : Bytes) :
    List.find? (fun p => p.1 == name) (setContent l name data) =
      (List.find? (fun p => p.1 == name) l).map (fun p => (p.1, data)) := by
  induction l with
  | nil => rfl
  | cons p t ih =>
      simp only [setContent] at ih ⊢
      simp only [List.map_cons]
      by_cases hp : (p.1 == name) = true
      · rw [if_pos hp,
          @List.find?_cons_of_pos _ (fun q => q.1 == name) (p.1, data) _ hp,
          @List.find?_cons_of_pos _ (fun q => q.1 == name) p _ hp]
        rfl
      · rw [if_neg hp,
          @List.find?_cons_of_neg _ (fun q => q.1 == name) p _ hp,
          @List.find?_cons_of_neg _ (fun q => q.1 == name) p _ hp]
        exact ih

lemma find_clear_eq (fs : FsState) (name : String) :
    (fs.clear name).find name = (fs.find name).map (fun _ => ([] : Bytes)) := by
  rcases fs with ⟨l⟩
  simp only [FsState.clear, FsState.find, find?_setContent]
  cases List.find? (fun p => p.1 == name) l <;> rfl

lemma find?_append_fresh (l : List (String × Bytes)) (name : String)
    (h : List.find? (fun p => p.1 == name) l = none) :
    List.find? (fun p => p.1 == name) (l ++ [(name, [])]) = some (name, []) := by
  induction l with
  | nil => simp
  | cons p t ih =>
      by_cases hp : (p.1 == name) = true
      · rw [@List.find?_cons_of_pos _ (fun q => q.1 == name) p t hp] at h
        exact absurd h (by simp)
      · rw [@List.find?_cons_of_neg _ (fun q => q.1 == name) p t hp] at h
        rw [List.cons_append,
          @List.find?_cons_of_neg _ (fun q => q.1 == name) p _ hp]
        exact ih h

lemma find_create_eq (fs : FsState) (name : String) (h : fs.find name = none) :
    (fs.create name).find name = some [] := by
  rcases fs with ⟨l⟩
  simp only [FsState.find, FsState.create] at *
  have hl : List.find? (fun p => p.1 == name) l = none := by
    cases hf : List.find? (fun p => p.1 == name) l
    · rfl
    · rw [hf] at h
      exact absurd h (by simp)
  rw [find?_append_fresh l name hl]
  rfl

/-- C2: `open_file` returns no handle exactly when either the CREATE bit
is unset and the name is absent, or the CREATE bit is set, the lookup
fails and the underlying create also fails; both failures collapse to the
same empty result and no error is raised. -/
theorem open_file_none_iff (fs : FsState) (createOk : Bool) (name : String)
    (flags : Nat) :
    (open_file fs createOk name flags).1 = none ↔
      ((containsFlag flags OpenFlags.CREATE = false ∧ fs.find name = none) ∨
       (containsFlag flags OpenFlags.CREATE = true ∧ fs.find name = none ∧
         createOk = false)) := by
  by_cases hc : containsFlag flags OpenFlags.CREATE = true
  · cases hf : fs.find name with
    | some c => simp [open_file, hc, hf]
    | none =>
        cases createOk with
        | true => simp [open_file, hc, hf]
        | false => simp [open_file, hc, hf]
  · cases hf : fs.find name with
    | some c =>
        cases ht : containsFlag flags OpenFlags.TRUNC with
        | true => simp [open_file, hc, hf, ht]
        | false => simp [open_file, hc, hf, ht]
    | none => simp [open_file, hc, hf]

/-- C1: with CREATE set, `open_file` truncates and wraps an existing
file (cursor 0), or asks the root to create the inode when absent and
wraps the result; opening twice with CREATE on a previously-absent name
yields a handle both times and the second call leaves the file empty. -/
theorem open_file_create_spec :
    (∀ (fs : FsState) (createOk : Bool) (name : String) (flags : Nat) (c : Bytes),
        containsFlag flags OpenFlags.CREATE = true →
        fs.find name = some c →
        open_file fs createOk name flags =
          (some (OSInode.new (read_write flags).1 (read_write flags).2 name),
            fs.clear name) ∧
        (fs.clear name).find name = some [] ∧
        (OSInode.new (read_write flags).1 (read_write flags).2 name).offset = 0) ∧
    (∀ (fs : FsState) (name : String) (flags : Nat),
        containsFlag flags OpenFlags.CREATE = true →
        fs.find name = none →
        open_file fs true name flags =
          (some (OSInode.new (read_write flags).1 (read_write flags).2 name),
            fs.create name)) ∧
    (∀ (fs : FsState) (name : String) (flags : Nat) (createOk2 : Bool),
        containsFlag flags OpenFlags.CREATE = true →
        fs.find name = none →
        (open_file fs true name flags).1.isSome = true ∧
        (open_file (open_file fs true name flags).2 createOk2 name flags).1.isSome
          = true ∧
        (open_file (open_file fs true name flags).2 createOk2 name flags).2.find name
          = some []) := by
  refine ⟨?_, ?_, ?_⟩
  · intro fs createOk name flags c hc hf
    refine ⟨?_, ?_, rfl⟩
    · simp [open_file, hc, hf]
    · rw [find_clear_eq, hf]
      rfl
  · intro fs name flags hc hf
    simp [open_file, hc, hf]
  · intro fs name flags createOk2 hc hf
    have h1 : open_file fs true name flags =
        (some (OSInode.new (read_write flags).1 (read_write flags).2 name),
          fs.create name) := by
      simp [open_file, hc, hf]
    have hfs1 : (fs.create name).find name = some [] := find_create_eq fs name hf
    have h2 : open_file (fs.create name) createOk2 name flags =
        (some (OSInode.new (read_write flags).1 (read_write flags).2 name),
          (fs.create name).clear name) := by
      simp [open_file, hc, hfs1]
    refine ⟨?_, ?_, ?_⟩
    · rw [h1]
      rfl
    · rw [h1]
      simp only []
      rw [h2]
      rfl
    · rw [h1]
      simp only []
      rw [h2]
      simp only []
      rw [find_clear_eq, hfs1]
      rfl

/-- Concrete instantiation of `open_file_create_spec`: opening "a" (which
stores one byte) with CREATE truncates it, and opening an absent "b"
twice with CREATE yields a handle both times and leaves "b" empty. -/
theorem open_file_create_spec_witness :
    (open_file ⟨[("a", [1])]⟩ true "a" 512 =
      (some (OSInode.new (read_write 512).1 (read_write 512).2 "a"),
        FsState.clear ⟨[("a", [1])]⟩ "a")) ∧
    ((open_file (open_file (⟨[]⟩ : FsState) true "b" 512).2 false "b" 512).2.find "b"
      = some []) :=
  ⟨(open_file_create_spec.1 ⟨[("a", [1])]⟩ true "a" 512 [1] (by decide)
      (by decide)).1,
   (open_file_create_spec.2.2 ⟨[]⟩ "b" 512 false (by decide) (by decide)).2.2⟩

/-- C8: with CREATE unset and TRUNC set, `open_file` on a present name
clears the content before returning the handle, whose cursor is 0; the
file is empty afterwards, so an already-empty file stays empty. -/
theorem open_file_trunc_spec (fs : FsState) (createOk : Bool) (name : String)
    (flags : Nat) (c : Bytes)
    (hc : containsFlag flags OpenFlags.CREATE = false)
    (ht : containsFlag flags OpenFlags.TRUNC = true)
    (hf : fs.find name = some c) :
    open_file fs createOk name flags =
      (some (OSInode.new (read_write flags).1 (read_write flags).2 name),
        fs.clear name) ∧
    (fs.clear name).find name = some [] ∧
    (OSInode.new (read_write flags).1 (read_write flags).2 name).offset = 0 := by
  refine ⟨?_, ?_, rfl⟩
  · simp [open_file, hc, ht, hf]
  · rw [find_clear_eq, hf]
    rfl

/-- Concrete instantiation of `open_file_trunc_spec`: opening the
already-empty file "a" with TRUNC only leaves it empty with cursor 0. -/
theorem open_file_trunc_spec_witness :
    open_file ⟨[("a", [])]⟩ false "a" 1024 =
      (some (OSInode.new (read_write 1024).1 (read_write 1024).2 "a"),
        FsState.clear ⟨[("a", [])]⟩ "a") ∧
    (FsState.clear ⟨[("a", [])]⟩ "a").find "a" = some [] ∧
    (OSInode.new (read_write 1024).1 (read_write 1024).2 "a").offset = 0 :=
  open_file_trunc_spec ⟨[("a", [])]⟩ false "a" 1024 [] (by decide) (by decide)
    (by decide)

/-- C6 counterexample: starting from the empty table, two increases on
identifier 0 followed by two decreases leave the table with the stored
entry `some 1` for identifier 0 (counts evolve 2, 3, 2, 1), so the table
does hold an entry, refuting the claim that after this sequence the table
holds no entry for the identifier. -/
theorem nlink_double_link_unlink_entry_remains :
    nlinkRun NlinkMap.empty [(true, 0), (true, 0), (false, 0), (false, 0)] 0 = some 1 ∧
    nlinkRun NlinkMap.empty [(true, 0), (true, 0), (false, 0), (false, 0)] 0 ≠ none := by
  constructor
  · decide
  · decide

/-- C6 (amended): `increase_nlink` increments a present entry and inserts
2 when absent; `decrease_nlink` decrements a present entry, removing it at
0, and is a no-op when absent; `get_nlink` returns the stored count or 1
when absent; hence `get_nlink` is 1 on a fresh identifier, 2 after one
increase, 1 after increase-then-decrease, and after two increases
followed by two decreases the table holds the entry with stored count 1
and `get_nlink` returns 1. -/
theorem nlink_table_spec :
    (∀ (m : NlinkMap) (id n : Nat), m id = some n →
        increase_nlink m id id = some (n + 1)) ∧
    (∀ (m : NlinkMap) (id : Nat), m id = none →
        increase_nlink m id id = some 2) ∧
    (∀ (m : NlinkMap) (id n : Nat), m id = some n →
        decrease_nlink m id id = if n - 1 = 0 then none else some (n - 1)) ∧
    (∀ (m : NlinkMap) (id : Nat), m id = none → decrease_nlink m id = m) ∧
    (∀ (m : NlinkMap) (id n : Nat), m id = some n → get_nlink m id = n) ∧
    (∀ id : Nat, get_nlink NlinkMap.empty id = 1) ∧
    (∀ id : Nat, get_nlink (increase_nlink NlinkMap.empty id) id = 2) ∧
    (∀ id : Nat,
        get_nlink (decrease_nlink (increase_nlink NlinkMap.empty id) id) id = 1) ∧
    (∀ id : Nat,
        nlinkRun NlinkMap.empty [(true, id), (true, id), (false, id), (false, id)] id
            = some 1 ∧
        get_nlink
            (nlinkRun NlinkMap.empty [(true, id), (true, id), (false, id), (false, id)])
            id = 1) := by
  refine ⟨?_, ?_, ?_, ?_, ?_, ?_, ?_, ?_, ?_⟩
  · intro m id n hm
    simp [increase_nlink, hm]
  · intro m id hm
    simp [increase_nlink, hm]
  · intro m id n hm
    simp only [decrease_nlink, hm]
    split <;> simp
  · intro m id hm
    simp [decrease_nlink, hm]
  · intro m id n hm
    simp [get_nlink, hm]
  · intro id
    simp [get_nlink, NlinkMap.empty]
  · intro id
    simp [get_nlink, increase_nlink, NlinkMap.empty]
  · intro id
    simp [get_nlink, decrease_nlink, increase_nlink, NlinkMap.empty]
  · intro id
    constructor
    · simp [nlinkRun, nlinkStep, List.foldl, increase_nlink, decrease_nlink,
        NlinkMap.empty]
    · simp [nlinkRun, nlinkStep, List.foldl, get_nlink, increase_nlink,
        decrease_nlink, NlinkMap.empty]

/-- Concrete instantiation of `nlink_table_spec` discharging each of its
hypotheses: on a table storing 5 for identifier 3, an increase yields 6, a
decrease yields 4 and `get_nlink` reads 5; on the empty table an increase
at 4 inserts 2 and a decrease at 7 is a no-op. -/
theorem nlink_table_spec_witness :
    increase_nlink (fun x => if x = 3 then some 5 else none) 3 3 = some 6 ∧
    increase_nlink NlinkMap.empty 4 4 = some 2 ∧
    decrease_nlink (fun x => if x = 3 then some 5 else none) 3 3 = some 4 ∧
    decrease_nlink NlinkMap.empty 7 = NlinkMap.empty ∧
    get_nlink (fun x => if x = 3 then some 5 else none) 3 = 5 :=
  ⟨nlink_table_spec.1 _ 3 5 (by decide),
   nlink_table_spec.2.1 NlinkMap.empty 4 rfl,
   (nlink_table_spec.2.2.1 _ 3 5 (by decide)).trans (by decide),
   nlink_table_spec.2.2.2.1 NlinkMap.empty 7 rfl,
   nlink_table_spec.2.2.2.2.1 _ 3 5 (by decide)⟩

/-- C5: the flags resolver returns (true, false) when no bits are set,
(false, true) whenever the write-only bit is set regardless of other
bits, and (true, true) in every other case; every bitmask is accepted. -/
theorem read_write_resolution :
    (∀ flags : Nat, flags = 0 → read_write flags = (true, false)) ∧
    (∀ flags : Nat, containsFlag flags OpenFlags.WRONLY = true →
        read_write flags = (false, true)) ∧
    (∀ flags : Nat, flags ≠ 0 → containsFlag flags OpenFlags.WRONLY = false →
        read_write flags = (true, true)) := by
  refine ⟨?_, ?_, ?_⟩
  · intro flags h
    subst h
    rfl
  · intro flags h
    have hmod : flags % 2 = 1 := by
      have h1 := h
      simp only [containsFlag, OpenFlags.WRONLY, Nat.and_one_is_mod,
        beq_iff_eq] at h1
      exact h1
    have h0 : flags ≠ 0 := by omega
    simp [read_write, h0, h]
  · intro flags h0 h
    simp [read_write, h0, h]

/-- Concrete instantiation of `read_write_resolution`: flags 0, 1 (plus
write-only with extra bits, 513) and 2 resolve as stated. -/
theorem read_write_resolution_witness :
    read_write 0 = (true, false) ∧ read_write 1 = (false, true) ∧
    read_write 513 = (false, true) ∧ read_write 2 = (true, true) :=
  ⟨read_write_resolution.1 0 rfl,
   read_write_resolution.2.1 1 (by decide),
   read_write_resolution.2.1 513 (by decide),
   read_write_resolution.2.2 2 (by decide) (by decide)⟩

lemma readAt_length (data : Bytes) (off n : Nat) :
    (readAt data off n).length = min n (data.length - off) := by
  simp [readAt]

lemma totalLen_cons (s : Bytes) (rest : List Bytes) :
    totalLen (s :: rest) = s.length + totalLen rest := by
  simp [totalLen]

lemma file_read_shape (data : Bytes) :
    ∀ (bufs : List Bytes) (h : OSInode),
      (file_read data h bufs).2.2.offset = h.offset + (file_read data h bufs).2.1 ∧
      (file_read data h bufs).2.2.readable = h.readable ∧
      (file_read data h bufs).2.2.writable = h.writable ∧
      (file_read data h bufs).2.2.inode = h.inode ∧
      (file_read data h bufs).1.length = bufs.length := by
  intro bufs
  induction bufs with
  | nil =>
      intro h
      simp [file_read]
  | cons s rest ih =>
      intro h
      by_cases hrd : (readAt data h.offset s.length).length = 0
      · simp [file_read, hrd]
      · obtain ⟨ih1, ih2, ih3, ih4, ih5⟩ :=
          ih ⟨h.readable, h.writable,
            h.offset + (readAt data h.offset s.length).length, h.inode⟩
        simp only [file_read, if_neg hrd]
        refine ⟨?_, ih2, ih3, ih4, ?_⟩
        · rw [ih1]
          dsimp only
          omega
        · simp [ih5]

lemma file_read_total (data : Bytes) :
    ∀ (bufs : List Bytes) (h : OSInode), (∀ b ∈ bufs, 0 < b.length) →
      (file_read data h bufs).2.1 = min (totalLen bufs) (data.length - h.offset) := by
  intro bufs
  induction bufs with
  | nil =>
      intro h _
      simp [file_read, totalLen]
  | cons s rest ih =>
      intro h hb
      have hs : 0 < s.length := hb s (by simp)
      have hrest : ∀ b ∈ rest, 0 < b.length := fun b hbm => hb b (by simp [hbm])
      have hlen : (readAt data h.offset s.length).length =
          min s.length (data.length - h.offset) := readAt_length data h.offset s.length
      by_cases hrd : (readAt data h.offset s.length).length = 0
      · simp only [file_read, if_pos hrd, totalLen_cons]
        omega
      · have ihr :=
          ih ⟨h.readable, h.writable,
            h.offset + (readAt data h.offset s.length).length, h.inode⟩ hrest
        simp only [file_read, if_neg hrd]
        simp only [totalLen_cons]
        simp only [ihr]
        omega

lemma file_read_eof (data : Bytes) (h : OSInode) (bufs : List Bytes)
    (hoff : data.length ≤ h.offset) : file_read data h bufs = (bufs, 0, h) := by
  cases bufs with
  | nil => simp [file_read]
  | cons s rest =>
      have hrd : (readAt data h.offset s.length).length = 0 := by
        rw [readAt_length]
        omega
      simp [file_read, hrd]

/-- C3: `read` processes the destination slices in order from the current
cursor, stops at the first zero-length read leaving later slices
untouched, advances the cursor by exactly the bytes read, and returns the
total; on a 10-byte file with slices of sizes 5, 5, 5 it returns 10 and
leaves the third slice unfilled. -/
theorem osinode_read_spec :
    (∀ (data : Bytes) (h : OSInode) (bufs : List Bytes),
        (file_read data h bufs).2.2.offset = h.offset + (file_read data h bufs).2.1) ∧
    (∀ (data : Bytes) (h : OSInode) (bufs : List Bytes),
        (∀ b ∈ bufs, 0 < b.length) →
        (file_read data h bufs).2.1 = min (totalLen bufs) (data.length - h.offset)) ∧
    (∀ (data : Bytes) (h : OSInode) (bufs : List Bytes),
        data.length ≤ h.offset → file_read data h bufs = (bufs, 0, h)) ∧
    (file_read (List.range 10) (OSInode.new true false "f")
        [List.replicate 5 0, List.replicate 5 0, List.replicate 5 0] =
      ([[0, 1, 2, 3, 4], [5, 6, 7, 8, 9], List.replicate 5 0], 10,
        ⟨true, false, 10, "f"⟩)) := by
  refine ⟨?_, ?_, ?_, ?_⟩
  · intro data h bufs
    exact (file_read_shape data bufs h).1
  · intro data h bufs hb
    exact file_read_total data bufs h hb
  · intro data h bufs hoff
    exact file_read_eof data h bufs hoff
  · decide

/-- Concrete instantiation of `osinode_read_spec` discharging its
hypotheses: nonempty slices on a 3-byte file read min-total bytes, and a
read at end of file returns 0 leaving the slices untouched. -/
theorem osinode_read_spec_witness :
    (file_read [7, 8, 9] (OSInode.new true true "g") [[0], [0]]).2.1 =
      min (totalLen [[0], [0]]) (List.length [7, 8, 9] -
        (OSInode.new true true "g").offset) ∧
    file_read [] (OSInode.new true true "g") [[0]] =
      ([[0]], 0, OSInode.new true true "g") :=
  ⟨osinode_read_spec.2.1 [7, 8, 9] (OSInode.new true true "g") [[0], [0]]
      (by decide),
   osinode_read_spec.2.2.1 [] (OSInode.new true true "g") [[0]] (by decide)⟩

/-- C4: under the invariant that the underlying store always writes the
full slice length, `write` never trips its assertion, writes every slice
in full, advances the cursor by each slice's length, and returns the sum
of all slice lengths; when the store reports a short write on a slice,
the assertion fires (modelled as an aborted, empty outcome) instead of
returning a short count. -/
theorem osinode_write_spec :
    (∀ (writeAt : Nat → Bytes → Nat) (h : OSInode) (bufs : List Bytes),
        (∀ off b, writeAt off b = b.length) →
        file_write writeAt h bufs =
          some (totalLen bufs,
            ⟨h.readable, h.writable, h.offset + totalLen bufs, h.inode⟩)) ∧
    (∀ (writeAt : Nat → Bytes → Nat) (h : OSInode) (s : Bytes) (rest : List Bytes),
        writeAt h.offset s ≠ s.length →
        file_write writeAt h (s :: rest) = none) := by
  constructor
  · intro writeAt h bufs hAll
    induction bufs generalizing h with
    | nil =>
        simp only [file_write, totalLen, List.map_nil, List.sum_nil, Nat.add_zero]
    | cons s rest ih =>
        simp only [file_write, hAll h.offset s]
        rw [ih ⟨h.readable, h.writable, h.offset + s.length, h.inode⟩]
        dsimp only
        simp [totalLen_cons, Nat.add_assoc]
  · intro writeAt h s rest hw
    simp only [file_write, if_neg hw]

/-- Concrete instantiation of `osinode_write_spec`: a full-length store
writes two slices of sizes 2 and 1 returning total 3 with the cursor at
3, and a store reporting 0 written bytes aborts. -/
theorem osinode_write_spec_witness :
    file_write (fun _ b => b.length) (OSInode.new true true "g") [[1, 2], [3]] =
      some (totalLen [[1, 2], [3]],
        ⟨true, true, 0 + totalLen [[1, 2], [3]], "g"⟩) ∧
    file_write (fun _ _ => 0) (OSInode.new true true "g") [[1, 2]] = none :=
  ⟨osinode_write_spec.1 (fun _ b => b.length) (OSInode.new true true "g")
      [[1, 2], [3]] (fun _ _ => rfl),
   osinode_write_spec.2 (fun _ _ => 0) (OSInode.new true true "g") [1, 2] []
      (by decide)⟩

lemma read_all_spec_aux (data : Bytes) :
    ∀ (k : Nat) (h : OSInode), data.length - h.offset ≤ k →
      (read_all data h).1 = data.drop h.offset ∧
      (read_all data h).2 =
        ⟨h.readable, h.writable, max data.length h.offset, h.inode⟩ := by
  intro k
  induction k with
  | zero =>
      intro h hk
      have hle : data.length ≤ h.offset := by omega
      have hlen : (readAt data h.offset 512).length = 0 := by
        rw [readAt_length]
        omega
      have hmax : max data.length h.offset = h.offset := Nat.max_eq_right hle
      rw [read_all, dif_pos hlen]
      refine ⟨?_, ?_⟩
      · exact (List.drop_eq_nil_of_le hle).symm
      · dsimp only
        rw [hmax]
  | succ k ih =>
      intro h hk
      by_cases hlen : (readAt data h.offset 512).length = 0
      · have hle : data.length ≤ h.offset := by
          rw [readAt_length] at hlen
          omega
        have hmax : max data.length h.offset = h.offset := Nat.max_eq_right hle
        rw [read_all, dif_pos hlen]
        refine ⟨?_, ?_⟩
        · exact (List.drop_eq_nil_of_le hle).symm
        · dsimp only
          rw [hmax]
      · have hpos : 0 < (readAt data h.offset 512).length := Nat.pos_of_ne_zero hlen
        have hmeas : data.length -
            (h.offset + (readAt data h.offset 512).length) ≤ k := by
          rw [readAt_length] at hpos ⊢
          omega
        obtain ⟨ih1, ih2⟩ :=
          ih ⟨h.readable, h.writable,
            h.offset + (readAt data h.offset 512).length, h.inode⟩ hmeas
        rw [read_all, dif_neg hlen]
        dsimp only
        refine ⟨?_, ?_⟩
        · rw [ih1]
          dsimp only
          simp only [readAt]
          rcases Nat.le_total (data.length - h.offset) 512 with hc | hc
          · have h2 : (data.drop h.offset).take 512 = data.drop h.offset := by
              apply List.take_of_length_le
              simp
              omega
            rw [h2]
            have h3 : (data.drop h.offset).length = data.length - h.offset := by
              simp
            rw [h3]
            have h4 : data.drop (h.offset + (data.length - h.offset)) = [] := by
              apply List.drop_eq_nil_of_le
              omega
            rw [h4, List.append_nil]
          · have h1 : ((data.drop h.offset).take 512).length = 512 := by
              simp
              omega
            rw [h1]
            have h5 : data.drop (h.offset + 512) =
                (data.drop h.offset).drop 512 := by
              rw [List.drop_drop, Nat.add_comm]
            rw [h5, List.take_append_drop]
        · rw [ih2]
          dsimp only
          rw [readAt_length] at hlen ⊢
          have : max data.length (h.offset + min 512 (data.length - h.offset)) =
              max data.length h.offset := by
            omega
          rw [this]

/-- C9: `read_all` reads in 512-byte chunks from the current cursor,
stops at the first zero-length read, returns exactly the content from the
starting cursor to end of file, and leaves the cursor at end of file (or
unmoved when it already points at or past the end). -/
theorem read_all_spec (data : Bytes) (h : OSInode) :
    (read_all data h).1 = data.drop h.offset ∧
    (read_all data h).2 =
      ⟨h.readable, h.writable, max data.length h.offset, h.inode⟩ :=
  read_all_spec_aux data (data.length - h.offset) h (Nat.le_refl _)

lemma file_read_caps_agnostic (data : Bytes) :
    ∀ (bufs : List Bytes) (r1 w1 r2 w2 : Bool) (off : Nat) (nm : String),
      (file_read data ⟨r1, w1, off, nm⟩ bufs).1 =
        (file_read data ⟨r2, w2, off, nm⟩ bufs).1 ∧
      (file_read data ⟨r1, w1, off, nm⟩ bufs).2.1 =
        (file_read data ⟨r2, w2, off, nm⟩ bufs).2.1 ∧
      (file_read data ⟨r1, w1, off, nm⟩ bufs).2.2.offset =
        (file_read data ⟨r2, w2, off, nm⟩ bufs).2.2.offset := by
  intro bufs
  induction bufs with
  | nil =>
      intro r1 w1 r2 w2 off nm
      simp [file_read]
  | cons s rest ih =>
      intro r1 w1 r2 w2 off nm
      by_cases hrd : (readAt data off s.length).length = 0
      · simp [file_read, hrd]
      · obtain ⟨i1, i2, i3⟩ :=
          ih r1 w1 r2 w2 (off + (readAt data off s.length).length) nm
        simp only [file_read]
        simp only [if_neg hrd]
        exact ⟨by rw [i1], by rw [i2], by rw [i3]⟩

lemma file_write_caps_agnostic (writeAt : Nat → Bytes → Nat) :
    ∀ (bufs : List Bytes) (r1 w1 r2 w2 : Bool) (off : Nat) (nm : String),
      (file_write writeAt ⟨r1, w1, off, nm⟩ bufs).map (fun p => (p.1, p.2.offset)) =
        (file_write writeAt ⟨r2, w2, off, nm⟩ bufs).map (fun p => (p.1, p.2.offset)) := by
  intro bufs
  induction bufs with
  | nil =>
      intro r1 w1 r2 w2 off nm
      simp [file_write]
  | cons s rest ih =>
      intro r1 w1 r2 w2 off nm
      by_cases hw : writeAt off s = s.length
      · have ihx := ih r1 w1 r2 w2 (off + writeAt off s) nm
        simp only [file_write]
        simp only [if_pos hw]
        cases h1 : file_write writeAt ⟨r1, w1, off + writeAt off s, nm⟩ rest with
        | none =>
            cases h2 : file_write writeAt ⟨r2, w2, off + writeAt off s, nm⟩ rest with
            | none => simp
            | some res2 =>
                rw [h1, h2] at ihx
                simp at ihx
        | some res =>
            cases h2 : file_write writeAt ⟨r2, w2, off + writeAt off s, nm⟩ rest with
            | none =>
                rw [h1, h2] at ihx
                simp at ihx
            | some res2 =>
                rw [h1, h2] at ihx
                simp only [Option.map_some'] at ihx
                have hx := Option.some.inj ihx
                rw [Prod.mk.injEq] at hx
                simp [hx.1, hx.2]
      · simp only [file_write]
        simp [if_neg hw]

/-- C10: neither `read` nor `write` inspects the handle's capability
fields: the outcome (slices filled, totals, final cursor, assertion
behaviour) of `file_read` and `file_write` is identical for any two
handles differing only in their capability pair, and the capabilities
fixed by `OSInode::new` are exactly what `readable()` and `writable()`
return. -/
theorem capability_advisory_spec :
    (∀ (data : Bytes) (bufs : List Bytes) (r1 w1 r2 w2 : Bool) (off : Nat)
        (nm : String),
        (file_read data ⟨r1, w1, off, nm⟩ bufs).1 =
          (file_read data ⟨r2, w2, off, nm⟩ bufs).1 ∧
        (file_read data ⟨r1, w1, off, nm⟩ bufs).2.1 =
          (file_read data ⟨r2, w2, off, nm⟩ bufs).2.1 ∧
        (file_read data ⟨r1, w1, off, nm⟩ bufs).2.2.offset =
          (file_read data ⟨r2, w2, off, nm⟩ bufs).2.2.offset) ∧
    (∀ (writeAt : Nat → Bytes → Nat) (bufs : List Bytes) (r1 w1 r2 w2 : Bool)
        (off : Nat) (nm : String),
        (file_write writeAt ⟨r1, w1, off, nm⟩ bufs).map (fun p => (p.1, p.2.offset)) =
          (file_write writeAt ⟨r2, w2, off, nm⟩ bufs).map
            (fun p => (p.1, p.2.offset))) ∧
    (∀ (r w : Bool) (nm : String),
        (OSInode.new r w nm).readable = r ∧ (OSInode.new r w nm).writable = w) := by
  refine ⟨?_, ?_, ?_⟩
  · intro data bufs r1 w1 r2 w2 off nm
    exact file_read_caps_agnostic data bufs r1 w1 r2 w2 off nm
  · intro writeAt bufs r1 w1 r2 w2 off nm
    exact file_write_caps_agnostic writeAt bufs r1 w1 r2 w2 off nm
  · intro r w nm
    exact ⟨rfl, rfl⟩

end RCoreFs
